import Mathlib

/-!
Verification of the segment-level payload and vector indexing subsystem
(qdrant). Shallow embedding of:

* `MutableMapIndex` (src/lib/segment/src/index/field_index/map_index/mutable_map_index.rs),
  Gridstore backend: the in-memory `map` (`HashMap<value, BTreeSet<offset>>`)
  is embedded as an association list `List (α × Finset ℕ)` keeping its keys
  (a `HashMap` keeps a key even when its posting set becomes empty), the
  forward `point_to_values : Vec<Vec<value>>` as `List (List α)`.
* `MmapNullIndex` (src/lib/segment/src/index/field_index/null_index/mmap_null_index.rs)
  over a model of `DynamicMmapFlags` (the dynamic mmap flag vector itself is
  not part of the analysed sources and is modelled from the spec).
* `AppendableMmapVectorStorage`
  (src/lib/segment/src/vector_storage/appendable_mmap_vector_storage.rs) over
  models of `ChunkedMmapVectors` and `DynamicMmapFlags`.

Fallible operations mutate `&mut self` and return `OperationResult`; they are
embedded as functions returning the new state paired with a success flag
(`true` = `Ok`): on `Err` the partial mutations performed before the error
are kept, exactly as in the Rust code.
-/

namespace MapIdx

variable {α : Type} [DecidableEq α]

/-- Association-list view of `HashMap<N::Owned, BTreeSet<PointOffsetType>>`:
keys are kept even when the posting set is empty, as in a `HashMap`. -/
abbrev PostingMap (α : Type) := List (α × Finset ℕ)

/-- `self.map.get(value)`: the posting set of `value`, `∅` when absent. -/
def lookupPosting : PostingMap α → α → Finset ℕ
  | [], _ => ∅
  | (k, s) :: rest, v => if k = v then s else lookupPosting rest v

/-- `self.map.entry(value).or_default().insert(idx)`: insert `idx` into the
posting set of `value`, creating the entry when missing. -/
def insertPosting : PostingMap α → α → ℕ → PostingMap α
  | [], v, i => [(v, {i})]
  | (k, s) :: rest, v, i =>
    if k = v then (k, insert i s) :: rest else (k, s) :: insertPosting rest v i

/-- `if let Some(vals) = self.map.get_mut(value) { vals.remove(&idx) }`:
remove `idx` from the posting set of `value` when the entry exists; the
entry itself (possibly now empty) stays in the map. -/
def erasePosting : PostingMap α → α → ℕ → PostingMap α
  | [], _, _ => []
  | (k, s) :: rest, v, i =>
    if k = v then (k, s.erase i) :: rest else (k, s) :: erasePosting rest v i

/-- `MutableMapIndex<N>` with the Gridstore backend.  `storagePresent`
embeds the `Storage::Gridstore(Option<…>)` tag: `true` = `Some(store)`.
The Gridstore contents themselves are write-only for the claims below
(`put_value`/`delete_value` always succeed), so they are not tracked. -/
structure MutableMapIndex (α : Type) where
  map : PostingMap α
  point_to_values : List (List α)
  indexed_points : ℕ
  values_count : ℕ
  storagePresent : Bool

/-- `self.point_to_values.resize_with(n, Vec::new)` for growth (the code
resizes only when `len <= idx`, to `idx + 1`; padding with `n - len`
empty lists is the same operation, a no-op when already long enough). -/
def padTo (n : ℕ) (l : List (List α)) : List (List α) :=
  l ++ List.replicate (n - l.length) []

/-- The value list of offset `j` as observed through `get_values` /
`check_values_any` (absent and empty are both read as no values). -/
def valuesAt (s : MutableMapIndex α) (j : ℕ) : List α :=
  s.point_to_values.getD j []

/-- `MutableMapIndex::add_many_to_map(idx, values)`.  Mirrors the source:
an empty `values` returns `Ok` immediately; otherwise `values_count` is
bumped and `point_to_values[idx]` is replaced by a fresh vector *before*
dispatching on the storage; with a present Gridstore every value is pushed
to `point_to_values[idx]` and inserted into its posting set, the records
are written, and `indexed_points` is incremented unconditionally; with an
absent Gridstore the function errors after the initial mutations. -/
def add_many_to_map (s : MutableMapIndex α) (idx : ℕ) (values : List α) :
    MutableMapIndex α × Bool :=
  if values = [] then (s, true)
  else
    let ptv := padTo (idx + 1) s.point_to_values
    if s.storagePresent then
      ({ map := values.foldl (fun m v => insertPosting m v idx) s.map
         point_to_values := ptv.set idx values
         indexed_points := s.indexed_points + 1
         values_count := s.values_count + values.length
         storagePresent := s.storagePresent }, true)
    else
      ({ s with
         point_to_values := ptv.set idx []
         values_count := s.values_count + values.length }, false)

/-- `MutableMapIndex::remove_point(idx)`.  Out-of-range offsets are a
no-op `Ok`; otherwise the value list is taken out, the counters are
decremented, each removed value's posting set drops `idx`, and the
backend delete runs (erroring when the Gridstore is absent, after the
in-memory mutations already happened). -/
def remove_point (s : MutableMapIndex α) (idx : ℕ) : MutableMapIndex α × Bool :=
  if s.point_to_values.length ≤ idx then (s, true)
  else
    let removed := s.point_to_values.getD idx []
    ({ map := removed.foldl (fun m v => erasePosting m v idx) s.map
       point_to_values := s.point_to_values.set idx []
       indexed_points := if removed = [] then s.indexed_points else s.indexed_points - 1
       values_count := s.values_count - removed.length
       storagePresent := s.storagePresent }, s.storagePresent)

/-- `MutableMapIndex::get_indexed_points`. -/
def get_indexed_points (s : MutableMapIndex α) : ℕ := s.indexed_points

/-- `MutableMapIndex::get_values_count`. -/
def get_values_count (s : MutableMapIndex α) : ℕ := s.values_count

/-- `MutableMapIndex::get_unique_values_count` (`self.map.len()`). -/
def get_unique_values_count (s : MutableMapIndex α) : ℕ := s.map.length

/-- `MutableMapIndex::open_gridstore(path, create_if_missing)`:
builds the empty in-memory index; the Gridstore is opened or created when
`create_if_missing`, opened when the path exists, and absent otherwise.
The filesystem is abstracted by the `pathExists` flag. -/
def open_gridstore (pathExists create_if_missing : Bool) : MutableMapIndex α :=
  { map := []
    point_to_values := []
    indexed_points := 0
    values_count := 0
    storagePresent := create_if_missing || pathExists }

/-- `MutableMapIndex::load` / `load_gridstore`: with an absent Gridstore
return `Ok(false)`; otherwise stream the backend records (one
`(offset, values)` pair per stored point, abstracted as `records`) and
rebuild the in-memory structure, returning `Ok(true)`.  Result is the new
state paired with the `OperationResult<bool>` payload. -/
def load (s : MutableMapIndex α) (records : List (ℕ × List α)) :
    MutableMapIndex α × Bool :=
  if s.storagePresent then
    (records.foldl
      (fun acc r =>
        r.2.foldl
          (fun acc v =>
            let ptv := padTo (r.1 + 1) acc.point_to_values
            let pointValues := ptv.getD r.1 []
            { map := insertPosting acc.map v r.1
              point_to_values := ptv.set r.1 (pointValues ++ [v])
              indexed_points :=
                if pointValues = [] then acc.indexed_points + 1 else acc.indexed_points
              values_count := acc.values_count + 1
              storagePresent := acc.storagePresent })
          acc)
      { s with indexed_points := 0 }, true)
  else (s, false)

/-- One mutating operation on the mutable map index. -/
inductive MapOp (α : Type) where
  | add (idx : ℕ) (values : List α)
  | remove (idx : ℕ)

/-- Apply a sequence of operations (keeping only the states). -/
def applyOps (s : MutableMapIndex α) : List (MapOp α) → MutableMapIndex α
  | [] => s
  | MapOp.add idx values :: rest => applyOps (add_many_to_map s idx values).1 rest
  | MapOp.remove idx :: rest => applyOps (remove_point s idx).1 rest

/-- A sequence is legal from `s` when every `add` with non-empty values
targets an offset whose value list is empty at that moment — the caller
contract of `add_many_to_map` (indexers call `remove_point` before
re-adding a point). -/
def legalB (s : MutableMapIndex α) : List (MapOp α) → Bool
  | [] => true
  | MapOp.add idx values :: rest =>
    (decide (values = []) || decide (valuesAt s idx = [])) &&
      legalB (add_many_to_map s idx values).1 rest
  | MapOp.remove idx :: rest => legalB (remove_point s idx).1 rest

/-- Posting/forward agreement: `j ∈ map[v]` iff `v ∈ point_to_values[j]`. -/
def agree (s : MutableMapIndex α) : Prop :=
  ∀ (v : α) (j : ℕ), j ∈ lookupPosting s.map v ↔ v ∈ valuesAt s j

end MapIdx

namespace Flags

/-- Modelled from the spec: the `DynamicMmapFlags` resizable bit-vector
(§4.1, not part of the analysed sources) — a flag list whose backing file
grows on demand, growth writing zeros. -/
structure DynamicMmapFlags where
  flags : List Bool

/-- `DynamicMmapFlags::len`. -/
def DynamicMmapFlags.len (d : DynamicMmapFlags) : ℕ := d.flags.length

/-- `DynamicMmapFlags::get(i)`: flags beyond the current length read as
`false`. -/
def DynamicMmapFlags.get (d : DynamicMmapFlags) (i : ℕ) : Bool :=
  d.flags.getD i false

/-- Modelled from the spec: `set_len(n)` growth pads with zeros (§4.1,
"growth beyond the current length writes zeros"); shrinking is never used
by the code under analysis. -/
def DynamicMmapFlags.set_len (d : DynamicMmapFlags) (n : ℕ) : DynamicMmapFlags :=
  ⟨d.flags ++ List.replicate (n - d.flags.length) false⟩

/-- `set(i, b)` for `i` within the current length; returns the previous
value. -/
def DynamicMmapFlags.set (d : DynamicMmapFlags) (i : ℕ) (b : Bool) :
    DynamicMmapFlags × Bool :=
  (⟨d.flags.set i b⟩, d.get i)

/-- `set_with_resize(i, b)`: grow to `i + 1` when needed, then set. -/
def DynamicMmapFlags.set_with_resize (d : DynamicMmapFlags) (i : ℕ) (b : Bool) :
    DynamicMmapFlags :=
  ((if d.len ≤ i then d.set_len (i + 1) else d).set i b).1

/-- `count_flags()`: popcount of the vector. -/
def DynamicMmapFlags.count_flags (d : DynamicMmapFlags) : ℕ :=
  d.flags.count true

/-- `iter_trues()`: offsets of the set flags, in ascending order. -/
def DynamicMmapFlags.iter_trues (d : DynamicMmapFlags) : List ℕ :=
  (List.range d.len).filter (fun i => d.get i)

end Flags

namespace NullIdx

open Flags

/-- `serde_json::Value`: the JSON value tree.  Numbers and strings carry
no structure the null index inspects; objects' fields are never inspected
(`Value::Object(_)`), so they are embedded as a single constructor. -/
inductive JsonValue where
  | null
  | bool (b : Bool)
  | num (n : ℤ)
  | str (s : String)
  | arr (xs : List JsonValue)
  | obj

/-- `Value::is_null()`. -/
def JsonValue.isNull : JsonValue → Bool
  | JsonValue.null => true
  | _ => false

/-- The `Storage` struct of `MmapNullIndex`: the two flag vectors. -/
structure NullStorage where
  has_values_slice : DynamicMmapFlags
  is_null_slice : DynamicMmapFlags

/-- `MmapNullIndex` (the `base_dir` path is irrelevant to behaviour). -/
structure MmapNullIndex where
  storage : Option NullStorage
  total_point_count : ℕ

/-- `MmapNullIndex::open(path, total_point_count, create_if_missing)`:
when the `has_values` directory is missing and creation is off, the index
opens with absent storage; otherwise the two flag vectors are opened
(their on-disk contents abstracted as `diskHas`/`diskNull`, empty for a
fresh directory).  The filesystem is abstracted by `dirExists`. -/
def openIndex (dirExists create_if_missing : Bool) (total_point_count : ℕ)
    (diskHas diskNull : List Bool) : MmapNullIndex :=
  if !dirExists && !create_if_missing then
    { storage := none, total_point_count := total_point_count }
  else
    { storage := some { has_values_slice := ⟨diskHas⟩, is_null_slice := ⟨diskNull⟩ }
      total_point_count := total_point_count }

/-- `PayloadFieldIndex::load` for `MmapNullIndex`: `Ok(storage.is_some())`. -/
def load (s : MmapNullIndex) : Bool := s.storage.isSome

/-- The flag-computation loop of `MmapNullIndex::add_point`, with its
early exit once both flags are set.  State is `(is_null, has_values)`. -/
def computeFlags : List JsonValue → Bool → Bool → Bool × Bool
  | [], is_n, has_v => (is_n, has_v)
  | v :: rest, is_n, has_v =>
    let is_n' :=
      match v with
      | JsonValue.null => true
      | JsonValue.arr xs => is_n || xs.any JsonValue.isNull
      | _ => is_n
    let has_v' :=
      match v with
      | JsonValue.null => has_v
      | JsonValue.arr xs => has_v || !xs.isEmpty
      | _ => true
    if is_n' && has_v' then (is_n', has_v') else computeFlags rest is_n' has_v'

/-- `MmapNullIndex::add_point(id, payload)`: errors with absent storage;
otherwise computes the two flags from the payload, writes them with
resize, and bumps `total_point_count` to at least `id + 1`. -/
def add_point (s : MmapNullIndex) (id : ℕ) (payload : List JsonValue) :
    MmapNullIndex × Bool :=
  match s.storage with
  | none => (s, false)
  | some st =>
    let fl := computeFlags payload false false
    ({ storage := some
         { has_values_slice := st.has_values_slice.set_with_resize id fl.2
           is_null_slice := st.is_null_slice.set_with_resize id fl.1 }
       total_point_count := max s.total_point_count (id + 1) }, true)

/-- `MmapNullIndex::remove_point(id)`: a no-op `Ok` with absent storage;
otherwise clears both flags at `id` and bumps `total_point_count` to at
least `id + 1` (the documented must-bump-on-remove behaviour). -/
def remove_point (s : MmapNullIndex) (id : ℕ) : MmapNullIndex × Bool :=
  match s.storage with
  | none => (s, true)
  | some st =>
    ({ storage := some
         { has_values_slice := st.has_values_slice.set_with_resize id false
           is_null_slice := st.is_null_slice.set_with_resize id false }
       total_point_count := max s.total_point_count (id + 1) }, true)

/-- `MmapNullIndex::values_is_empty(id)`: `true` with absent storage,
otherwise the negation of the `has_values` flag. -/
def values_is_empty (s : MmapNullIndex) (id : ℕ) : Bool :=
  match s.storage with
  | none => true
  | some st => !st.has_values_slice.get id

/-- `MmapNullIndex::values_is_null(id)`: `false` with absent storage,
otherwise the `is_null` flag. -/
def values_is_null (s : MmapNullIndex) (id : ℕ) : Bool :=
  match s.storage with
  | none => false
  | some st => st.is_null_slice.get id

/-- Stated from the spec ("has at least one non-null value; arrays:
length > 0 counts as has-values; null elements do not"): whether a single
JSON value counts towards `has_values`.  Kept separate from
`computeFlags` so the code's loop can be compared against it. -/
def specHasValues : JsonValue → Bool
  | JsonValue.null => false
  | JsonValue.arr xs => !xs.isEmpty
  | _ => true

/-- Stated from the spec ("the value is JSON null or is an array
containing any null"): whether a single JSON value counts towards
`is_null`. -/
def specIsNull : JsonValue → Bool
  | JsonValue.null => true
  | JsonValue.arr xs => xs.any JsonValue.isNull
  | _ => false

/-- The two null-index conditions of a `FieldCondition`: `is_empty(flag)`
or `is_null(flag)`. -/
inductive NullCondition where
  | isEmpty (flag : Bool)
  | isNull (flag : Bool)

/-- `PayloadFieldIndex::filter` for `MmapNullIndex` (the returned lazy
iterator embedded as the list it yields): `None` with absent storage;
`is_empty: true` scans `[0, total_point_count)` dropping set `has_values`
flags; `is_empty: false` iterates the set `has_values` flags;
`is_null: true` iterates the set `is_null` flags; `is_null: false` scans
`[0, total_point_count)` dropping set `is_null` flags. -/
def filter (s : MmapNullIndex) (c : NullCondition) : Option (List ℕ) :=
  match s.storage with
  | none => none
  | some st =>
    match c with
    | NullCondition.isEmpty true =>
      some ((List.range s.total_point_count).filter
        (fun id => !st.has_values_slice.get id))
    | NullCondition.isEmpty false => some st.has_values_slice.iter_trues
    | NullCondition.isNull true => some st.is_null_slice.iter_trues
    | NullCondition.isNull false =>
      some ((List.range s.total_point_count).filter
        (fun id => !st.is_null_slice.get id))

/-- `CardinalityEstimation` (primary clauses embedded as the condition
that produced them). -/
structure CardinalityEstimation where
  primary_clauses : List NullCondition
  min : ℕ
  exp : ℕ
  max : ℕ

/-- `CardinalityEstimation::exact(count)`. -/
def CardinalityEstimation.exact (count : ℕ) : CardinalityEstimation :=
  { primary_clauses := [], min := count, exp := count, max := count }

/-- `with_primary_clause`. -/
def CardinalityEstimation.with_primary_clause (e : CardinalityEstimation)
    (c : NullCondition) : CardinalityEstimation :=
  { e with primary_clauses := e.primary_clauses ++ [c] }

/-- `PayloadFieldIndex::estimate_cardinality` for `MmapNullIndex`:
`None` with absent storage; `is_empty: false` and `is_null: true` are
exact popcounts; `is_empty: true` and `is_null: false` return
`{min: 0, exp: 2·estimated/3, max: estimated}` with
`estimated = total_point_count − popcount(flag)` (saturating). -/
def estimate_cardinality (s : MmapNullIndex) (c : NullCondition) :
    Option CardinalityEstimation :=
  match s.storage with
  | none => none
  | some st =>
    match c with
    | NullCondition.isEmpty true =>
      let estimated := s.total_point_count - st.has_values_slice.count_flags
      some { primary_clauses := [NullCondition.isEmpty true]
             min := 0, exp := 2 * estimated / 3, max := estimated }
    | NullCondition.isEmpty false =>
      some ((CardinalityEstimation.exact
        st.has_values_slice.count_flags).with_primary_clause
          (NullCondition.isEmpty false))
    | NullCondition.isNull true =>
      some ((CardinalityEstimation.exact
        st.is_null_slice.count_flags).with_primary_clause
          (NullCondition.isNull true))
    | NullCondition.isNull false =>
      let estimated := s.total_point_count - st.is_null_slice.count_flags
      some { primary_clauses := [NullCondition.isNull false]
             min := 0, exp := 2 * estimated / 3, max := estimated }

end NullIdx

namespace VecStore

open Flags

/-- Modelled from the spec: `ChunkedMmapVectors` (§4.2, not part of the
analysed sources) — an append-only array of fixed-dim vectors; `push`
appends, `insert(i, v)` is refused at `i > len` (no sparse holes).  Pages
are a storage detail invisible to `len`/`get`/`push`/`insert`. -/
structure ChunkedMmapVectors (α : Type) where
  vecs : List (List α)

/-- `ChunkedMmapVectors::len`. -/
def ChunkedMmapVectors.len (c : ChunkedMmapVectors α) : ℕ := c.vecs.length

/-- `ChunkedMmapVectors::push(v) → new_offset`. -/
def ChunkedMmapVectors.push (c : ChunkedMmapVectors α) (v : List α) :
    ChunkedMmapVectors α × ℕ :=
  (⟨c.vecs ++ [v]⟩, c.vecs.length)

/-- Modelled from the spec: `ChunkedMmapVectors::insert(i, v)` — append at
`i = len`, overwrite at `i < len`, refused (error, no change) at
`i > len` (§4.2). -/
def ChunkedMmapVectors.insert (c : ChunkedMmapVectors α) (i : ℕ) (v : List α) :
    ChunkedMmapVectors α × Bool :=
  if i < c.vecs.length then (⟨c.vecs.set i v⟩, true)
  else if i = c.vecs.length then (⟨c.vecs ++ [v]⟩, true)
  else (c, false)

/-- `AppendableMmapVectorStorage`: chunked store + deletion flags +
cached `deleted_count`.  The `distance` tag and the optional quantized
copy do not interact with the operations verified here and are omitted. -/
structure AppendableMmapVectorStorage (α : Type) where
  vectors : ChunkedMmapVectors α
  deleted : DynamicMmapFlags
  deleted_count : ℕ

/-- `VectorStorage::total_vector_count` (`self.vectors.len()`). -/
def total_vector_count (s : AppendableMmapVectorStorage α) : ℕ :=
  s.vectors.len

/-- `AppendableMmapVectorStorage::set_deleted(key, deleted)`: out-of-range
keys return `Ok(false)` untouched; otherwise the flag vector is grown to
cover `key`, the flag is set, the previous value returned, and
`deleted_count` adjusted on an actual state change. -/
def set_deleted (s : AppendableMmapVectorStorage α) (key : ℕ) (deleted : Bool) :
    AppendableMmapVectorStorage α × Bool :=
  if s.vectors.len ≤ key then (s, false)
  else
    let d := if s.deleted.len ≤ key then s.deleted.set_len (key + 1) else s.deleted
    let r := d.set key deleted
    let previous := r.2
    ({ vectors := s.vectors
       deleted := r.1
       deleted_count :=
         if !previous && deleted then s.deleted_count + 1
         else if previous && !deleted then s.deleted_count - 1
         else s.deleted_count }, previous)

/-- `VectorStorage::insert_vector(key, vector)` = `self.vectors.insert`. -/
def insert_vector (s : AppendableMmapVectorStorage α) (key : ℕ) (v : List α) :
    AppendableMmapVectorStorage α × Bool :=
  let r := s.vectors.insert key v
  ({ s with vectors := r.1 }, r.2)

/-- `VectorStorage::delete_vector(key)` = `set_deleted(key, true)`;
returns the previous deleted state. -/
def delete_vector (s : AppendableMmapVectorStorage α) (key : ℕ) :
    AppendableMmapVectorStorage α × Bool :=
  set_deleted s key true

/-- `VectorStorage::is_deleted_vector(key)`. -/
def is_deleted_vector (s : AppendableMmapVectorStorage α) (key : ℕ) : Bool :=
  s.deleted.get key

/-- `VectorStorage::deleted_vector_count`. -/
def deleted_vector_count (s : AppendableMmapVectorStorage α) : ℕ :=
  s.deleted_count

/-- The loop of `update_from`: each iteration polls the cancellation flag
(`stopped` is the trace of polls), then pushes the other storage's vector
and copies its deletion state.  The source points to copy are abstracted
as `(vector, deleted)` pairs.  Returns `false` when cancelled (the state
mutated so far is kept, as with `&mut self`). -/
def update_from_go (s : AppendableMmapVectorStorage α)
    (others : List (List α × Bool)) (stopped : List Bool) (k : ℕ) :
    AppendableMmapVectorStorage α × Bool :=
  match others with
  | [] => (s, true)
  | o :: rest =>
    if stopped.getD k false then (s, false)
    else
      update_from_go
        (set_deleted { s with vectors := (s.vectors.push o.1).1 }
          (s.vectors.push o.1).2 o.2).1
        rest stopped (k + 1)

/-- `VectorStorage::update_from(other, other_ids, stopped)`: bulk copy,
returning `Ok(start_index..end_index)` on success. -/
def update_from (s : AppendableMmapVectorStorage α)
    (others : List (List α × Bool)) (stopped : List Bool) :
    AppendableMmapVectorStorage α × Option (ℕ × ℕ) :=
  let start_index := s.vectors.len
  let r := update_from_go s others stopped 0
  (r.1, if r.2 then some (start_index, r.1.vectors.len) else none)

/-- `open_appendable_memmap_vector_storage`: the vectors and deletion
flags are read from disk (abstracted as arguments) and `deleted_count` is
recomputed by scanning the flags below `num_vectors`. -/
def openStorage (diskVecs : List (List α)) (diskDeleted : List Bool) :
    AppendableMmapVectorStorage α :=
  let vectors : ChunkedMmapVectors α := ⟨diskVecs⟩
  let deleted : DynamicMmapFlags := ⟨diskDeleted⟩
  { vectors := vectors
    deleted := deleted
    deleted_count :=
      ((List.range vectors.len).filter (fun i => deleted.get i)).length }

/-- One mutating operation on the appendable vector storage. -/
inductive VOp (α : Type) where
  | insert (key : ℕ) (v : List α)
  | delete (key : ℕ)
  | updateFrom (others : List (List α × Bool)) (stopped : List Bool)

/-- Apply a sequence of operations (keeping only the states; errors keep
their partial state, as in the code). -/
def applyVOps (s : AppendableMmapVectorStorage α) : List (VOp α) →
    AppendableMmapVectorStorage α
  | [] => s
  | VOp.insert key v :: rest => applyVOps (insert_vector s key v).1 rest
  | VOp.delete key :: rest => applyVOps (delete_vector s key).1 rest
  | VOp.updateFrom others stopped :: rest =>
    applyVOps (update_from s others stopped).1 rest

/-- Popcount of the deletion flags restricted to `[0, len)`. -/
def countDeletedBelowLen (s : AppendableMmapVectorStorage α) : ℕ :=
  ((List.range s.vectors.len).filter (fun i => s.deleted.get i)).length

/-- The deleted-count invariant: the cached counter equals the popcount
of the deletion flags below the vector count. -/
abbrev countInv (s : AppendableMmapVectorStorage α) : Prop :=
  s.deleted_count = countDeletedBelowLen s

/-- Well-formedness of the deletion flags: they do not extend past the
vector count (true of any state the flusher ordering can persist, and
preserved by every operation). -/
abbrev flagsWf (s : AppendableMmapVectorStorage α) : Prop :=
  s.deleted.len ≤ s.vectors.len

/-- The target of one component flush. -/
inductive FlushTarget where
  | vectors
  | deletedFlags
deriving DecidableEq

/-- Flushing the chunked vector pages, as the event it appends to a flush
trace. -/
def flushVectors (t : List FlushTarget) : List FlushTarget :=
  t ++ [FlushTarget.vectors]

/-- Flushing the deletion bitmap, as the event it appends to a flush
trace. -/
def flushDeleted (t : List FlushTarget) : List FlushTarget :=
  t ++ [FlushTarget.deletedFlags]

/-- Modelled from the spec: `AppendableMmapVectorStorage::flusher` is
`todo!()` in the source; §4.4 mandates that the returned deferred closure
flushes vectors first, then the deletion bitmap.  The closure is embedded
by the flush trace produced when it is invoked. -/
def flusher (_s : AppendableMmapVectorStorage α) :
    List FlushTarget → List FlushTarget :=
  fun t => flushDeleted (flushVectors t)

end VecStore

section ListHelpers

variable {β : Type}

/-- Reading through zero padding is the same as reading the original
list (out-of-range reads give the default, which is the padding value). -/
theorem getD_append_replicate (l : List β) (d : β) (k j : ℕ) :
    (l ++ List.replicate k d).getD j d = l.getD j d := by
  induction l generalizing j with
  | nil => simp
  | cons a t ih =>
    cases j with
    | zero => simp
    | succ i => simpa using ih i

/-- `getD` after `set` at the written position. -/
theorem getD_set_self (l : List β) (i : ℕ) (a d : β) (h : i < l.length) :
    (l.set i a).getD i d = a := by
  induction l generalizing i with
  | nil => simp at h
  | cons b t ih =>
    cases i with
    | zero => simp
    | succ j => simpa using ih j (by simpa using h)

/-- `getD` after `set` at another position. -/
theorem getD_set_ne (l : List β) (i j : ℕ) (a d : β) (h : i ≠ j) :
    (l.set i a).getD j d = l.getD j d := by
  simp [List.getD, List.getElem?_set_ne h]

end ListHelpers

namespace MapIdx

variable {α : Type} [DecidableEq α]

/-- Looking a value up after a single posting insert. -/
theorem lookupPosting_insertPosting (m : PostingMap α) (v w : α) (i : ℕ) :
    lookupPosting (insertPosting m v i) w =
      if w = v then insert i (lookupPosting m w) else lookupPosting m w := by
  induction m with
  | nil =>
    by_cases h : w = v
    · subst h; simp [insertPosting, lookupPosting]
    · simp [insertPosting, lookupPosting, h, Ne.symm h]
  | cons p rest ih =>
    obtain ⟨k, s⟩ := p
    by_cases hk : k = v
    · subst hk
      by_cases hw : w = k
      · subst hw; simp [insertPosting, lookupPosting]
      · simp [insertPosting, lookupPosting, hw, Ne.symm hw]
    · by_cases hw : k = w
      · subst hw
        simp [insertPosting, lookupPosting, hk, Ne.symm hk]
      · simp [insertPosting, lookupPosting, hk, hw, ih]

/-- Looking a value up after inserting an offset for a whole value list. -/
theorem lookupPosting_foldl_insert (V : List α) (m : PostingMap α) (i : ℕ) (w : α) :
    lookupPosting (V.foldl (fun m v => insertPosting m v i) m) w =
      if w ∈ V then insert i (lookupPosting m w) else lookupPosting m w := by
  induction V generalizing m with
  | nil => simp
  | cons v rest ih =>
    simp only [List.foldl_cons]
    rw [ih, lookupPosting_insertPosting]
    by_cases hw : w ∈ rest
    · by_cases hv : w = v <;> simp [hw, hv, Finset.insert_idem]
    · by_cases hv : w = v <;> simp [hw, hv]

/-- Looking a value up after a single posting erase. -/
theorem lookupPosting_erasePosting (m : PostingMap α) (v w : α) (i : ℕ) :
    lookupPosting (erasePosting m v i) w =
      if w = v then (lookupPosting m w).erase i else lookupPosting m w := by
  induction m with
  | nil => by_cases h : w = v <;> simp [erasePosting, lookupPosting, h]
  | cons p rest ih =>
    obtain ⟨k, s⟩ := p
    by_cases hk : k = v
    · subst hk
      by_cases hw : w = k
      · subst hw; simp [erasePosting, lookupPosting]
      · simp [erasePosting, lookupPosting, hw, Ne.symm hw]
    · by_cases hw : k = w
      · subst hw
        simp [erasePosting, lookupPosting, hk, Ne.symm hk]
      · simp [erasePosting, lookupPosting, hk, hw, ih]

/-- Looking a value up after erasing an offset for a whole value list. -/
theorem lookupPosting_foldl_erase (V : List α) (m : PostingMap α) (i : ℕ) (w : α) :
    lookupPosting (V.foldl (fun m v => erasePosting m v i) m) w =
      if w ∈ V then (lookupPosting m w).erase i else lookupPosting m w := by
  induction V generalizing m with
  | nil => simp
  | cons v rest ih =>
    simp only [List.foldl_cons]
    rw [ih, lookupPosting_erasePosting]
    by_cases hw : w ∈ rest
    · by_cases hv : w = v <;> simp [hw, hv, Finset.erase_idem]
    · by_cases hv : w = v <;> simp [hw, hv]

omit [DecidableEq α] in
/-- Length after growth padding: at least `n`. -/
theorem length_padTo (n : ℕ) (l : List (List α)) :
    (padTo n l).length = max l.length n := by
  simp [padTo]
  omega

omit [DecidableEq α] in
/-- Reading through growth padding. -/
theorem getD_padTo (n : ℕ) (l : List (List α)) (j : ℕ) :
    (padTo n l).getD j [] = l.getD j [] :=
  getD_append_replicate l [] _ j

end MapIdx


namespace MapIdx

variable {α : Type} [DecidableEq α]

/-- Unfolding `add_many_to_map` on the success path. -/
theorem add_eq_present (s : MutableMapIndex α) (idx : ℕ) (V : List α)
    (hV : V ≠ []) (hs : s.storagePresent = true) :
    add_many_to_map s idx V =
      ({ map := V.foldl (fun m v => insertPosting m v idx) s.map
         point_to_values := (padTo (idx + 1) s.point_to_values).set idx V
         indexed_points := s.indexed_points + 1
         values_count := s.values_count + V.length
         storagePresent := true }, true) := by
  simp [add_many_to_map, hV, hs]

/-- Unfolding `add_many_to_map` on the storage-absent error path. -/
theorem add_eq_absent (s : MutableMapIndex α) (idx : ℕ) (V : List α)
    (hV : V ≠ []) (hs : s.storagePresent = false) :
    add_many_to_map s idx V =
      ({ s with
         point_to_values := (padTo (idx + 1) s.point_to_values).set idx []
         values_count := s.values_count + V.length }, false) := by
  simp [add_many_to_map, hV, hs]

/-- Unfolding `remove_point` for an in-range offset. -/
theorem remove_eq_inrange (s : MutableMapIndex α) (idx : ℕ)
    (h : idx < s.point_to_values.length) :
    remove_point s idx =
      ({ map := (s.point_to_values.getD idx []).foldl
           (fun m v => erasePosting m v idx) s.map
         point_to_values := s.point_to_values.set idx []
         indexed_points :=
           if s.point_to_values.getD idx [] = [] then s.indexed_points
           else s.indexed_points - 1
         values_count := s.values_count - (s.point_to_values.getD idx []).length
         storagePresent := s.storagePresent }, s.storagePresent) := by
  simp [remove_point, Nat.not_le.mpr h]

/-- Unfolding `remove_point` for an out-of-range offset. -/
theorem remove_eq_outrange (s : MutableMapIndex α) (idx : ℕ)
    (h : s.point_to_values.length ≤ idx) :
    remove_point s idx = (s, true) := by
  simp [remove_point, h]

omit [DecidableEq α] in
/-- An out-of-range offset observes no values. -/
theorem valuesAt_outrange (s : MutableMapIndex α) (idx : ℕ)
    (h : s.point_to_values.length ≤ idx) : valuesAt s idx = [] :=
  List.getD_eq_default _ _ h

/-- Value lists after a successful `add_many_to_map`: `values` at the
target offset, untouched elsewhere. -/
theorem add_valuesAt (s : MutableMapIndex α) (idx : ℕ) (V : List α)
    (hV : V ≠ []) (hs : s.storagePresent = true) (j : ℕ) :
    valuesAt (add_many_to_map s idx V).1 j = if j = idx then V else valuesAt s j := by
  rw [add_eq_present s idx V hV hs]
  by_cases hj : j = idx
  · subst hj
    simp only [valuesAt, if_pos rfl]
    exact getD_set_self _ _ _ _ (by rw [length_padTo]; omega)
  · simp only [valuesAt, if_neg hj]
    rw [getD_set_ne _ _ _ _ _ (fun h => hj h.symm), getD_padTo]

/-- Posting lookups after a successful `add_many_to_map`: the target
offset is inserted into the posting set of every added value. -/
theorem add_map_lookup (s : MutableMapIndex α) (idx : ℕ) (V : List α)
    (hV : V ≠ []) (hs : s.storagePresent = true) (v : α) :
    lookupPosting (add_many_to_map s idx V).1.map v =
      if v ∈ V then insert idx (lookupPosting s.map v) else lookupPosting s.map v := by
  rw [add_eq_present s idx V hV hs]
  exact lookupPosting_foldl_insert V s.map idx v

/-- Value lists after `remove_point`: emptied at the target offset,
untouched elsewhere (also when the offset is out of range). -/
theorem remove_valuesAt (s : MutableMapIndex α) (idx : ℕ) (j : ℕ) :
    valuesAt (remove_point s idx).1 j = if j = idx then [] else valuesAt s j := by
  by_cases hr : s.point_to_values.length ≤ idx
  · rw [remove_eq_outrange s idx hr]
    by_cases hj : j = idx
    · subst hj; simp [valuesAt_outrange s j hr]
    · simp [hj]
  · rw [remove_eq_inrange s idx (by omega)]
    by_cases hj : j = idx
    · subst hj
      simp only [valuesAt, if_pos rfl]
      exact getD_set_self _ _ _ _ (by omega)
    · simp only [valuesAt, if_neg hj]
      exact getD_set_ne _ _ _ _ _ (fun h => hj h.symm)

/-- Posting lookups after `remove_point`: the target offset is erased
from the posting set of every removed value. -/
theorem remove_map_lookup (s : MutableMapIndex α) (idx : ℕ) (v : α) :
    lookupPosting (remove_point s idx).1.map v =
      if v ∈ valuesAt s idx then (lookupPosting s.map v).erase idx
      else lookupPosting s.map v := by
  by_cases hr : s.point_to_values.length ≤ idx
  · rw [remove_eq_outrange s idx hr]
    simp [valuesAt_outrange s idx hr]
  · rw [remove_eq_inrange s idx (by omega)]
    exact lookupPosting_foldl_erase _ s.map idx v

/-- Counters after `remove_point`. -/
theorem remove_counters (s : MutableMapIndex α) (idx : ℕ) :
    (remove_point s idx).1.indexed_points =
      (if valuesAt s idx = [] then s.indexed_points else s.indexed_points - 1) ∧
    (remove_point s idx).1.values_count = s.values_count - (valuesAt s idx).length := by
  by_cases hr : s.point_to_values.length ≤ idx
  · rw [remove_eq_outrange s idx hr]
    simp [valuesAt_outrange s idx hr]
  · rw [remove_eq_inrange s idx (by omega)]
    simp [valuesAt]

/-- One legal `add_many_to_map` step preserves posting/forward
agreement (including the storage-absent error path, which only clears an
already-empty value list). -/
theorem agree_add (s : MutableMapIndex α) (idx : ℕ) (V : List α)
    (h : V = [] ∨ valuesAt s idx = []) (ha : agree s) :
    agree (add_many_to_map s idx V).1 := by
  rcases h with hV | hemp
  · subst hV; simpa [add_many_to_map] using ha
  · by_cases hV : V = []
    · subst hV; simpa [add_many_to_map] using ha
    · by_cases hs : s.storagePresent
      · intro v j
        rw [add_map_lookup s idx V hV hs, add_valuesAt s idx V hV hs]
        by_cases hj : j = idx
        · subst hj
          by_cases hv : v ∈ V
          · simp [hv]
          · simp only [if_neg hv, if_pos rfl]
            rw [ha v j]
            simp [hemp, hv]
        · by_cases hv : v ∈ V
          · simp only [if_pos hv, if_neg hj, Finset.mem_insert]
            rw [ha v j]
            simp [hj]
          · simp [hv, hj, ha v j]
      · have hs' : s.storagePresent = false := by simpa using hs
        intro v j
        rw [add_eq_absent s idx V hV hs']
        have hvals :
            ((padTo (idx + 1) s.point_to_values).set idx []).getD j [] =
              valuesAt s j := by
          by_cases hj : j = idx
          · subst hj
            rw [getD_set_self _ _ _ _ (by rw [length_padTo]; omega)]
            exact hemp.symm
          · rw [getD_set_ne _ _ _ _ _ (fun h => hj h.symm), getD_padTo]
            rfl
        show j ∈ lookupPosting s.map v ↔
          v ∈ ((padTo (idx + 1) s.point_to_values).set idx []).getD j []
        rw [hvals]
        exact ha v j

/-- `remove_point` preserves posting/forward agreement. -/
theorem agree_remove (s : MutableMapIndex α) (idx : ℕ) (ha : agree s) :
    agree (remove_point s idx).1 := by
  intro v j
  rw [remove_map_lookup s idx v, remove_valuesAt s idx j]
  by_cases hj : j = idx
  · subst hj
    by_cases hv : v ∈ valuesAt s j
    · simp [hv]
    · simp only [if_neg hv, if_pos rfl]
      rw [ha v j]
      simp [hv]
  · by_cases hv : v ∈ valuesAt s idx
    · simp only [if_pos hv, if_neg hj, Finset.mem_erase]
      rw [ha v j]
      simp [hj]
    · simp [hv, hj, ha v j]

/-- Under agreement, `remove_point` empties the forward list and removes
the offset from every posting set. -/
theorem remove_clears (s : MutableMapIndex α) (idx : ℕ) (ha : agree s) :
    valuesAt (remove_point s idx).1 idx = [] ∧
      ∀ v, idx ∉ lookupPosting (remove_point s idx).1.map v := by
  constructor
  · rw [remove_valuesAt s idx idx]; simp
  · intro v
    rw [remove_map_lookup s idx v]
    by_cases hv : v ∈ valuesAt s idx
    · simp [hv]
    · simp only [if_neg hv]
      rw [ha v idx]
      exact hv

/-- Agreement is preserved along any legal operation sequence. -/
theorem agree_applyOps (ops : List (MapOp α)) (s : MutableMapIndex α)
    (ha : agree s) (hl : legalB s ops = true) : agree (applyOps s ops) := by
  induction ops generalizing s with
  | nil => exact ha
  | cons op rest ih =>
    cases op with
    | add idx V =>
      simp only [legalB, Bool.and_eq_true, Bool.or_eq_true, decide_eq_true_eq] at hl
      exact ih _ (agree_add s idx V hl.1 ha) hl.2
    | remove idx =>
      simp only [legalB] at hl
      exact ih _ (agree_remove s idx ha) hl

end MapIdx

namespace MapIdx

variable {α : Type} [DecidableEq α]

/-- C1 (counterexample): from the empty index, `add_many_to_map(0, [5])`
makes `point_to_values[0]` non-empty and sets `indexed_points = 1`; a
second `add_many_to_map(0, [7])` — offset 0 now decidedly non-empty —
still increments `indexed_points`, to 2, so the increment is not
conditional on the offset having been empty and a twice-added offset is
counted twice, not once. -/
theorem add_many_to_map_indexed_points_counterexample :
    valuesAt ((add_many_to_map
      (⟨[], [], 0, 0, true⟩ : MutableMapIndex ℕ) 0 [5]).1) 0 = [5] ∧
    get_indexed_points ((add_many_to_map
      (⟨[], [], 0, 0, true⟩ : MutableMapIndex ℕ) 0 [5]).1) = 1 ∧
    get_indexed_points ((add_many_to_map (add_many_to_map
      (⟨[], [], 0, 0, true⟩ : MutableMapIndex ℕ) 0 [5]).1 0 [7]).1) = 2 := by
  decide

/-- C1 (amended): for every state with a present Gridstore, offset `i`
and non-empty value list `V`, `add_many_to_map(i, V)` increments
`values_count` by exactly `V.len()` and increments `indexed_points` by
exactly 1 — unconditionally, whether or not `point_to_values[i]` was
empty before the call (so a twice-added offset is counted twice; callers
keep the counter meaningful by removing a point before re-adding it). -/
theorem add_many_to_map_counter_increments (s : MutableMapIndex α)
    (idx : ℕ) (V : List α) (hs : s.storagePresent = true) (hV : V ≠ []) :
    get_values_count (add_many_to_map s idx V).1 = get_values_count s + V.length ∧
    get_indexed_points (add_many_to_map s idx V).1 = get_indexed_points s + 1 := by
  rw [get_values_count, get_indexed_points, add_eq_present s idx V hV hs]
  exact ⟨rfl, rfl⟩

/-- C1 (witness): the amended theorem applied to the empty index at
offset 0 with values `[5]`. -/
theorem add_many_to_map_counter_increments_witness :
    (⟨[], [], 0, 0, true⟩ : MutableMapIndex ℕ).storagePresent = true ∧
    ([5] : List ℕ) ≠ [] ∧
    (get_values_count ((add_many_to_map
        (⟨[], [], 0, 0, true⟩ : MutableMapIndex ℕ) 0 [5]).1) =
      get_values_count (⟨[], [], 0, 0, true⟩ : MutableMapIndex ℕ) + 1 ∧
     get_indexed_points ((add_many_to_map
        (⟨[], [], 0, 0, true⟩ : MutableMapIndex ℕ) 0 [5]).1) =
      get_indexed_points (⟨[], [], 0, 0, true⟩ : MutableMapIndex ℕ) + 1) :=
  ⟨rfl, by decide,
    add_many_to_map_counter_increments _ 0 [5] rfl (by decide)⟩

end MapIdx

namespace MapIdx

variable {α : Type} [DecidableEq α]

/-- C2 (counterexample): the round trip does not restore every starting
state. From the state with `point_to_values[0] = [5]`, an
`add_many_to_map(0, [7])` followed by `remove_point(0)` leaves
`point_to_values[0] = []`, not `[5]` (the add replaced the list).  And
even from the empty index, `add(0, [5]); remove(0)` leaves the value `5`
as a key of the map (with an empty posting set), so the map itself is
not restored either: `get_unique_values_count` went from 0 to 1. -/
theorem add_remove_round_trip_counterexample :
    valuesAt ((add_many_to_map
      (⟨[], [], 0, 0, true⟩ : MutableMapIndex ℕ) 0 [5]).1) 0 = [5] ∧
    valuesAt ((remove_point (add_many_to_map (add_many_to_map
      (⟨[], [], 0, 0, true⟩ : MutableMapIndex ℕ) 0 [5]).1 0 [7]).1 0).1) 0 = [] ∧
    get_unique_values_count (⟨[], [], 0, 0, true⟩ : MutableMapIndex ℕ) = 0 ∧
    get_unique_values_count ((remove_point (add_many_to_map
      (⟨[], [], 0, 0, true⟩ : MutableMapIndex ℕ) 0 [5]).1 0).1) = 1 := by
  decide

/-- C2 (amended): for every state with a present Gridstore in which
offset `i` is empty — no observed values and membership in no posting
set — `add_many_to_map(i, V_i)` followed by `remove_point(i)` restores
all observable state: every offset's value list, every value's posting
set, and both counters (the map may additionally retain the values of
`V_i` as keys with empty posting sets, and `point_to_values` may retain
extra trailing empty slots; neither is observable through lookups). -/
theorem add_remove_round_trip (s : MutableMapIndex α) (idx : ℕ) (V : List α)
    (hs : s.storagePresent = true) (hp : valuesAt s idx = [])
    (hm : ∀ v : α, idx ∉ lookupPosting s.map v) :
    (∀ j, valuesAt (remove_point (add_many_to_map s idx V).1 idx).1 j =
      valuesAt s j) ∧
    (∀ v, lookupPosting (remove_point (add_many_to_map s idx V).1 idx).1.map v =
      lookupPosting s.map v) ∧
    get_indexed_points (remove_point (add_many_to_map s idx V).1 idx).1 =
      get_indexed_points s ∧
    get_values_count (remove_point (add_many_to_map s idx V).1 idx).1 =
      get_values_count s := by
  by_cases hV : V = []
  · subst hV
    have hadd : add_many_to_map s idx ([] : List α) = (s, true) := by
      simp [add_many_to_map]
    rw [hadd]
    refine ⟨?_, ?_, ?_, ?_⟩
    · intro j
      rw [remove_valuesAt s idx j]
      by_cases hj : j = idx
      · subst hj; simp [hp]
      · simp [hj]
    · intro v
      rw [remove_map_lookup s idx v, hp]
      simp
    · rw [get_indexed_points, get_indexed_points, (remove_counters s idx).1, if_pos hp]
    · rw [get_values_count, get_values_count, (remove_counters s idx).2, hp]
      simp
  · have h1 := add_valuesAt s idx V hV hs
    have h2 := add_map_lookup s idx V hV hs
    have hvidx : valuesAt (add_many_to_map s idx V).1 idx = V := by
      rw [h1 idx]; simp
    have hip : (add_many_to_map s idx V).1.indexed_points = s.indexed_points + 1 := by
      rw [add_eq_present s idx V hV hs]
    have hvc : (add_many_to_map s idx V).1.values_count =
        s.values_count + V.length := by
      rw [add_eq_present s idx V hV hs]
    refine ⟨?_, ?_, ?_, ?_⟩
    · intro j
      rw [remove_valuesAt _ idx j]
      by_cases hj : j = idx
      · subst hj; simp [hp]
      · simp [hj, h1 j]
    · intro v
      rw [remove_map_lookup _ idx v, hvidx, h2 v]
      by_cases hv : v ∈ V
      · simp only [if_pos hv]
        exact Finset.erase_insert (hm v)
      · simp [hv]
    · rw [get_indexed_points, get_indexed_points,
        (remove_counters _ idx).1, hvidx, if_neg hV, hip]
      omega
    · rw [get_values_count, get_values_count,
        (remove_counters _ idx).2, hvidx, hvc]
      omega

/-- C2 (witness): the amended round trip applied to the empty index at
offset 0 with values `[5]`. -/
theorem add_remove_round_trip_witness :
    (⟨[], [], 0, 0, true⟩ : MutableMapIndex ℕ).storagePresent = true ∧
    valuesAt (⟨[], [], 0, 0, true⟩ : MutableMapIndex ℕ) 0 = [] ∧
    (∀ v : ℕ, 0 ∉ lookupPosting
      (⟨[], [], 0, 0, true⟩ : MutableMapIndex ℕ).map v) ∧
    ((∀ j, valuesAt (remove_point (add_many_to_map
        (⟨[], [], 0, 0, true⟩ : MutableMapIndex ℕ) 0 [5]).1 0).1 j =
      valuesAt (⟨[], [], 0, 0, true⟩ : MutableMapIndex ℕ) j) ∧
    (∀ v, lookupPosting (remove_point (add_many_to_map
        (⟨[], [], 0, 0, true⟩ : MutableMapIndex ℕ) 0 [5]).1 0).1.map v =
      lookupPosting (⟨[], [], 0, 0, true⟩ : MutableMapIndex ℕ).map v) ∧
    get_indexed_points (remove_point (add_many_to_map
        (⟨[], [], 0, 0, true⟩ : MutableMapIndex ℕ) 0 [5]).1 0).1 =
      get_indexed_points (⟨[], [], 0, 0, true⟩ : MutableMapIndex ℕ) ∧
    get_values_count (remove_point (add_many_to_map
        (⟨[], [], 0, 0, true⟩ : MutableMapIndex ℕ) 0 [5]).1 0).1 =
      get_values_count (⟨[], [], 0, 0, true⟩ : MutableMapIndex ℕ)) := by
  refine ⟨rfl, by decide, fun v => by simp [lookupPosting], ?_⟩
  exact add_remove_round_trip _ 0 [5] rfl (by decide)
    (fun v => by simp [lookupPosting])

end MapIdx

namespace MapIdx

variable {α : Type} [DecidableEq α]

/-- C3 (counterexample): after the operation sequence
`add_many_to_map(0, [5]); add_many_to_map(0, [7])` — two adds to the
same offset with no removal in between — offset 0 is still a member of
the posting set of value 5, yet 5 no longer occurs in
`point_to_values[0]` (the second add replaced the forward list without
pruning the stale posting), so the posting/forward agreement fails for
this sequence. -/
theorem posting_forward_agreement_counterexample :
    0 ∈ lookupPosting ((add_many_to_map (add_many_to_map
      (⟨[], [], 0, 0, true⟩ : MutableMapIndex ℕ) 0 [5]).1 0 [7]).1).map 5 ∧
    5 ∉ valuesAt ((add_many_to_map (add_many_to_map
      (⟨[], [], 0, 0, true⟩ : MutableMapIndex ℕ) 0 [5]).1 0 [7]).1) 0 := by
  decide

/-- C3 (amended): starting from any state satisfying the posting/forward
agreement (in particular the freshly opened index), after any sequence of
`add_many_to_map` and `remove_point` operations in which every add with
non-empty values targets an offset whose value list is empty at that
moment (the caller contract — indexers remove a point before re-adding
it), the agreement `j ∈ map[v] ↔ v ∈ point_to_values[j]` holds; moreover
a further removal of any point empties its value list and removes it
from every posting set. -/
theorem posting_forward_agreement (s : MutableMapIndex α) (ops : List (MapOp α))
    (ha : agree s) (hl : legalB s ops = true) :
    agree (applyOps s ops) ∧
      ∀ idx, valuesAt (remove_point (applyOps s ops) idx).1 idx = [] ∧
        ∀ v, idx ∉ lookupPosting (remove_point (applyOps s ops) idx).1.map v := by
  have hA := agree_applyOps ops s ha hl
  exact ⟨hA, fun idx => remove_clears (applyOps s ops) idx hA⟩

/-- C3 (witness): the agreement theorem applied to the empty index and
the legal sequence `add(0, [5]); remove(0); add(0, [7])`. -/
theorem posting_forward_agreement_witness :
    agree (⟨[], [], 0, 0, true⟩ : MutableMapIndex ℕ) ∧
    legalB (⟨[], [], 0, 0, true⟩ : MutableMapIndex ℕ)
      [MapOp.add 0 [5], MapOp.remove 0, MapOp.add 0 [7]] = true ∧
    (agree (applyOps (⟨[], [], 0, 0, true⟩ : MutableMapIndex ℕ)
        [MapOp.add 0 [5], MapOp.remove 0, MapOp.add 0 [7]]) ∧
      ∀ idx, valuesAt (remove_point (applyOps
          (⟨[], [], 0, 0, true⟩ : MutableMapIndex ℕ)
          [MapOp.add 0 [5], MapOp.remove 0, MapOp.add 0 [7]]) idx).1 idx = [] ∧
        ∀ v, idx ∉ lookupPosting (remove_point (applyOps
          (⟨[], [], 0, 0, true⟩ : MutableMapIndex ℕ)
          [MapOp.add 0 [5], MapOp.remove 0, MapOp.add 0 [7]]) idx).1.map v) := by
  have ha : agree (⟨[], [], 0, 0, true⟩ : MutableMapIndex ℕ) := by
    intro v j
    simp [lookupPosting, valuesAt]
  exact ⟨ha, by decide, posting_forward_agreement _ _ ha (by decide)⟩

end MapIdx

namespace Flags

/-- Reading back a flag just written with `set_with_resize`. -/
theorem get_set_with_resize_self (d : DynamicMmapFlags) (i : ℕ) (b : Bool) :
    (d.set_with_resize i b).get i = b := by
  unfold DynamicMmapFlags.set_with_resize DynamicMmapFlags.set
    DynamicMmapFlags.set_len DynamicMmapFlags.get DynamicMmapFlags.len
  by_cases h : d.flags.length ≤ i
  · simp only [if_pos h]
    exact getD_set_self _ _ _ _ (by simp; omega)
  · simp only [if_neg h]
    exact getD_set_self _ _ _ _ (by omega)

/-- Reading another flag after `set_with_resize`: unchanged. -/
theorem get_set_with_resize_ne (d : DynamicMmapFlags) (i j : ℕ) (b : Bool)
    (h : i ≠ j) : (d.set_with_resize i b).get j = d.get j := by
  unfold DynamicMmapFlags.set_with_resize DynamicMmapFlags.set
    DynamicMmapFlags.set_len DynamicMmapFlags.get DynamicMmapFlags.len
  by_cases hle : d.flags.length ≤ i
  · simp only [if_pos hle]
    rw [getD_set_ne _ _ _ _ _ h]
    exact getD_append_replicate _ _ _ _
  · simp only [if_neg hle]
    exact getD_set_ne _ _ _ _ _ h

end Flags

namespace NullIdx

open Flags

/-- The add-point flag loop computes exactly the two spec disjunctions:
its early exit only skips work that could no longer change either flag. -/
theorem computeFlags_eq (l : List JsonValue) (a b : Bool) :
    computeFlags l a b = (a || l.any specIsNull, b || l.any specHasValues) := by
  induction l generalizing a b with
  | nil => simp [computeFlags]
  | cons v rest ih =>
    have key : ∀ a' b' : Bool,
        (if (a' && b') = true then (a', b') else computeFlags rest a' b') =
          (a' || rest.any specIsNull, b' || rest.any specHasValues) := by
      intro a' b'
      by_cases h : (a' && b') = true
      · rw [Bool.and_eq_true] at h
        simp [h.1, h.2]
      · simp only [if_neg h]
        exact ih a' b'
    cases v <;> simp only [computeFlags] <;> rw [key] <;>
      simp [specIsNull, specHasValues, Bool.or_assoc]

end NullIdx

namespace NullIdx

/-- C5: after `add_point(i, payload)` on an initialized index, the
`has_values` flag at `i` (observed through `values_is_empty`, its
negation) is set iff the payload holds at least one non-null value — a
non-empty array counts, null elements alone do not — and the `is_null`
flag (observed through `values_is_null`) is set iff some payload value is
JSON null or an array containing a null.  The last two conjuncts pin the
payload `[[null]]` (a single value: an array whose only element is null):
it is counted both as having values and as null. -/
theorem add_point_flags (st : NullStorage) (total id : ℕ)
    (payload : List JsonValue) :
    (add_point ⟨some st, total⟩ id payload).2 = true ∧
    values_is_empty (add_point ⟨some st, total⟩ id payload).1 id =
      !payload.any specHasValues ∧
    values_is_null (add_point ⟨some st, total⟩ id payload).1 id =
      payload.any specIsNull ∧
    values_is_empty (add_point ⟨some st, total⟩ id
      [JsonValue.arr [JsonValue.null]]).1 id = false ∧
    values_is_null (add_point ⟨some st, total⟩ id
      [JsonValue.arr [JsonValue.null]]).1 id = true := by
  refine ⟨rfl, ?_, ?_, ?_, ?_⟩
  · show (!(st.has_values_slice.set_with_resize id
      (computeFlags payload false false).2).get id) = _
    rw [Flags.get_set_with_resize_self, computeFlags_eq]
    simp
  · show ((st.is_null_slice.set_with_resize id
      (computeFlags payload false false).1).get id) = _
    rw [Flags.get_set_with_resize_self, computeFlags_eq]
    simp
  · show (!(st.has_values_slice.set_with_resize id
      (computeFlags [JsonValue.arr [JsonValue.null]] false false).2).get id) = _
    rw [Flags.get_set_with_resize_self, computeFlags_eq]
    simp [specHasValues]
  · show ((st.is_null_slice.set_with_resize id
      (computeFlags [JsonValue.arr [JsonValue.null]] false false).1).get id) = _
    rw [Flags.get_set_with_resize_self, computeFlags_eq]
    simp [specIsNull, JsonValue.isNull]

/-- C4 (counterexample): with `has_values = [true]` (popcount 1),
`is_null = []` and `total_point_count = 3`, the estimate for
`is_empty: true` is `{min: 0, exp: 1, max: 2}` — the estimated form with
`estimated = 3 − 1 = 2` — and not the exact popcount 1 the claim
assigns to the flag-true cases (`2 ≠ 1`). -/
theorem estimate_is_empty_true_counterexample :
    estimate_cardinality
        ⟨some ⟨⟨[true]⟩, ⟨[]⟩⟩, 3⟩ (NullCondition.isEmpty true) =
      some { primary_clauses := [NullCondition.isEmpty true]
             min := 0, exp := 1, max := 2 } ∧
    (⟨[true]⟩ : Flags.DynamicMmapFlags).count_flags = 1 ∧
    (2 : ℕ) ≠ 1 := by
  refine ⟨rfl, rfl, by decide⟩

/-- C4 (amended): on an initialized index, `estimate_cardinality` is the
exact popcount (min = exp = max) for `is_empty: false` and for
`is_null: true`, while for `is_empty: true` and for `is_null: false` it
returns `{min: 0, exp: 2·estimated/3, max: estimated}` with
`estimated = total_point_count − popcount(flag)` (saturating): the exact
cases are the ones whose matching offsets are explicitly flagged, not
the cases whose flag value is `true`. -/
theorem estimate_cardinality_cases (h n : List Bool) (total : ℕ) :
    estimate_cardinality ⟨some ⟨⟨h⟩, ⟨n⟩⟩, total⟩ (NullCondition.isEmpty false) =
      some { primary_clauses := [NullCondition.isEmpty false]
             min := h.count true, exp := h.count true, max := h.count true } ∧
    estimate_cardinality ⟨some ⟨⟨h⟩, ⟨n⟩⟩, total⟩ (NullCondition.isNull true) =
      some { primary_clauses := [NullCondition.isNull true]
             min := n.count true, exp := n.count true, max := n.count true } ∧
    estimate_cardinality ⟨some ⟨⟨h⟩, ⟨n⟩⟩, total⟩ (NullCondition.isEmpty true) =
      some { primary_clauses := [NullCondition.isEmpty true]
             min := 0, exp := 2 * (total - h.count true) / 3
             max := total - h.count true } ∧
    estimate_cardinality ⟨some ⟨⟨h⟩, ⟨n⟩⟩, total⟩ (NullCondition.isNull false) =
      some { primary_clauses := [NullCondition.isNull false]
             min := 0, exp := 2 * (total - n.count true) / 3
             max := total - n.count true } :=
  ⟨rfl, rfl, rfl, rfl⟩

/-- C6: on an initialized index, both `add_point(i, …)` and
`remove_point(i)` bump `total_point_count` to at least `i + 1`;
`remove_point(i)` clears both flags at `i`; and the `is_empty: true`
filter stream is exactly the offsets below `total_point_count` whose
`has_values` flag is unset — hence it yields `i` right after
`remove_point(i)`. -/
theorem total_point_count_high_water (st : NullStorage) (total id : ℕ)
    (payload : List JsonValue) :
    id + 1 ≤ (add_point ⟨some st, total⟩ id payload).1.total_point_count ∧
    id + 1 ≤ (remove_point ⟨some st, total⟩ id).1.total_point_count ∧
    values_is_empty (remove_point ⟨some st, total⟩ id).1 id = true ∧
    values_is_null (remove_point ⟨some st, total⟩ id).1 id = false ∧
    (∀ j, j ∈ (filter (remove_point ⟨some st, total⟩ id).1
        (NullCondition.isEmpty true)).getD [] ↔
      (j < (remove_point ⟨some st, total⟩ id).1.total_point_count ∧
        values_is_empty (remove_point ⟨some st, total⟩ id).1 j = true)) ∧
    id ∈ (filter (remove_point ⟨some st, total⟩ id).1
      (NullCondition.isEmpty true)).getD [] := by
  refine ⟨?_, ?_, ?_, ?_, ?_, ?_⟩
  · show id + 1 ≤ max total (id + 1)
    omega
  · show id + 1 ≤ max total (id + 1)
    omega
  · show (!(st.has_values_slice.set_with_resize id false).get id) = true
    rw [Flags.get_set_with_resize_self]
    rfl
  · show ((st.is_null_slice.set_with_resize id false).get id) = false
    exact Flags.get_set_with_resize_self _ _ _
  · intro j
    show j ∈ (List.range (max total (id + 1))).filter
        (fun i => !(st.has_values_slice.set_with_resize id false).get i) ↔ _
    rw [List.mem_filter, List.mem_range]
    exact Iff.rfl
  · show id ∈ (List.range (max total (id + 1))).filter
      (fun i => !(st.has_values_slice.set_with_resize id false).get i)
    rw [List.mem_filter, List.mem_range]
    refine ⟨by omega, ?_⟩
    rw [Flags.get_set_with_resize_self]
    rfl

/-- C9: opening with `create_if_missing = false` over a missing backend
directory yields an index with absent storage, without error (both the
null/empty index and the Gridstore-backed mutable map index), and the
subsequent `load()` returns `Ok(false)` — no error — leaving the map
index untouched. -/
theorem open_missing_without_create (total : ℕ) (diskHas diskNull : List Bool)
    (records : List (ℕ × List ℕ)) :
    (openIndex false false total diskHas diskNull).storage = none ∧
    load (openIndex false false total diskHas diskNull) = false ∧
    (MapIdx.open_gridstore false false : MapIdx.MutableMapIndex ℕ).storagePresent
      = false ∧
    MapIdx.load (MapIdx.open_gridstore false false : MapIdx.MutableMapIndex ℕ)
      records = (MapIdx.open_gridstore false false, false) :=
  ⟨rfl, rfl, rfl, rfl⟩

end NullIdx


section CountHelpers

/-- Changing a predicate at a single in-range point shifts the filtered
count of `range n` by exactly the difference at that point (stated
subtraction-free). -/
theorem length_filter_range_update (n key : ℕ) (hk : key < n) (f g : ℕ → Bool)
    (hag : ∀ i, i ≠ key → g i = f i) :
    ((List.range n).filter g).length + (if f key then 1 else 0) =
      ((List.range n).filter f).length + (if g key then 1 else 0) := by
  have hperm : List.Perm (List.range n) (key :: (List.range n).erase key) :=
    List.perm_cons_erase (List.mem_range.mpr hk)
  have hcong : ((List.range n).erase key).countP g =
      ((List.range n).erase key).countP f := by
    refine List.countP_congr ?_
    intro a ha
    have hne : a ≠ key := ((List.nodup_range n).mem_erase_iff.mp ha).1
    rw [hag a hne]
  rw [← List.countP_eq_length_filter g, ← List.countP_eq_length_filter f,
    hperm.countP_eq g, hperm.countP_eq f, List.countP_cons, List.countP_cons,
    hcong]
  by_cases hf : f key <;> by_cases hg : g key <;> simp [hf, hg]

end CountHelpers

namespace VecStore

open Flags

variable {α : Type}

/-- Growing the flags ahead of a `set` does not change any read. -/
theorem get_padded (d : DynamicMmapFlags) (key i : ℕ) :
    (if d.len ≤ key then d.set_len (key + 1) else d).get i = d.get i := by
  by_cases h : d.len ≤ key
  · rw [if_pos h]
    show (d.flags ++ List.replicate (key + 1 - d.flags.length) false).getD i false
      = d.flags.getD i false
    exact getD_append_replicate _ _ _ _
  · rw [if_neg h]

/-- Length of the flags after the conditional growth. -/
theorem len_padded (d : DynamicMmapFlags) (key : ℕ) :
    (if d.len ≤ key then d.set_len (key + 1) else d).len = max d.len (key + 1) := by
  by_cases h : d.len ≤ key
  · rw [if_pos h]
    show (d.flags ++ List.replicate (key + 1 - d.flags.length) false).length
      = max d.flags.length (key + 1)
    have h' : d.flags.length ≤ key := h
    simp
    omega
  · rw [if_neg h]
    have h' : ¬d.flags.length ≤ key := h
    show d.flags.length = max d.flags.length (key + 1)
    omega

/-- `set_deleted` preserves the deleted-count invariant and flag
well-formedness, and never changes the vector count. -/
theorem set_deleted_inv (s : AppendableMmapVectorStorage α) (key : ℕ) (b : Bool)
    (h1 : countInv s) (h2 : flagsWf s) :
    countInv (set_deleted s key b).1 ∧ flagsWf (set_deleted s key b).1 ∧
      (set_deleted s key b).1.vectors.len = s.vectors.len := by
  by_cases hk : s.vectors.len ≤ key
  · simp only [set_deleted, if_pos hk]
    exact ⟨h1, h2, by trivial⟩
  · have hklt : key < s.vectors.len := by omega
    simp only [set_deleted, if_neg hk]
    set d := if s.deleted.len ≤ key then s.deleted.set_len (key + 1) else s.deleted
      with hd
    have hdlen : d.len = max s.deleted.len (key + 1) := len_padded s.deleted key
    have hdget : ∀ i, d.get i = s.deleted.get i := get_padded s.deleted key
    have hprev : (d.set key b).2 = s.deleted.get key := hdget key
    have hsetlen : (d.set key b).1.len = d.len := by
      show (d.flags.set key b).length = d.flags.length
      exact List.length_set d.flags key b
    have hget_self : (d.set key b).1.get key = b := by
      show (d.flags.set key b).getD key false = b
      refine getD_set_self _ _ _ _ ?_
      have hdl : max s.deleted.len (key + 1) = d.flags.length := hdlen.symm
      have : key + 1 ≤ max s.deleted.len (key + 1) := by omega
      omega
    have hget_ne : ∀ i, i ≠ key → (d.set key b).1.get i = s.deleted.get i := by
      intro i hi
      show (d.flags.set key b).getD i false = s.deleted.get i
      rw [getD_set_ne _ _ _ _ _ (fun h => hi h.symm)]
      exact hdget i
    have hcount := length_filter_range_update s.vectors.len key hklt
      (fun i => s.deleted.get i) (fun i => (d.set key b).1.get i)
      (fun i hi => hget_ne i hi)
    simp only [hget_self] at hcount
    rw [countInv, countDeletedBelowLen] at h1
    refine ⟨?_, ?_, ?_⟩
    · show (if !(d.set key b).2 && b then s.deleted_count + 1
          else if (d.set key b).2 && !b then s.deleted_count - 1
          else s.deleted_count) =
        ((List.range s.vectors.len).filter (fun i => (d.set key b).1.get i)).length
      rw [hprev]
      cases hp : s.deleted.get key <;> cases hb : b
      · simp only [hp, hb] at hcount ⊢
        simp at hcount ⊢
        omega
      · simp only [hp, hb] at hcount ⊢
        simp at hcount ⊢
        omega
      · simp only [hp, hb] at hcount ⊢
        simp at hcount ⊢
        omega
      · simp only [hp, hb] at hcount ⊢
        simp at hcount ⊢
        omega
    · show (d.set key b).1.len ≤ s.vectors.len
      rw [hsetlen, hdlen]
      have h2' : s.deleted.len ≤ s.vectors.len := h2
      omega
    · trivial

end VecStore

namespace VecStore

variable {α : Type}

/-- `insert_vector` at an occupied slot: overwrite, same length. -/
theorem insert_vector_lt (s : AppendableMmapVectorStorage α) (key : ℕ)
    (v : List α) (h : key < s.vectors.len) :
    insert_vector s key v =
      ({ s with vectors := ⟨s.vectors.vecs.set key v⟩ }, true) := by
  have h' : key < s.vectors.vecs.length := h
  simp [insert_vector, ChunkedMmapVectors.insert, h']

/-- `insert_vector` at the current length: append. -/
theorem insert_vector_append (s : AppendableMmapVectorStorage α) (v : List α) :
    insert_vector s s.vectors.len v =
      ({ s with vectors := ⟨s.vectors.vecs ++ [v]⟩ }, true) := by
  simp [insert_vector, ChunkedMmapVectors.insert, ChunkedMmapVectors.len]

/-- `insert_vector` past the current length: refused, no change. -/
theorem insert_vector_gt (s : AppendableMmapVectorStorage α) (key : ℕ)
    (v : List α) (h : s.vectors.len < key) :
    insert_vector s key v = (s, false) := by
  have h1' : ¬key < s.vectors.vecs.length := by
    have h' : s.vectors.vecs.length < key := h
    omega
  have h2' : ¬key = s.vectors.vecs.length := by
    have h' : s.vectors.vecs.length < key := h
    omega
  simp [insert_vector, ChunkedMmapVectors.insert, h1', h2']

/-- Appending a vector leaves the below-length popcount unchanged when
the flags do not extend past the old length. -/
theorem append_inv (s : AppendableMmapVectorStorage α) (v : List α)
    (h1 : countInv s) (h2 : flagsWf s) :
    countInv ({ s with vectors := ⟨s.vectors.vecs ++ [v]⟩ } :
      AppendableMmapVectorStorage α) ∧
    flagsWf ({ s with vectors := ⟨s.vectors.vecs ++ [v]⟩ } :
      AppendableMmapVectorStorage α) := by
  have hget : s.deleted.get s.vectors.vecs.length = false := by
    show s.deleted.flags.getD s.vectors.vecs.length false = false
    exact List.getD_eq_default _ _ h2
  constructor
  · show s.deleted_count =
      ((List.range (s.vectors.vecs ++ [v]).length).filter
        (fun i => s.deleted.get i)).length
    rw [List.length_append]
    show s.deleted_count =
      ((List.range (s.vectors.vecs.length + 1)).filter
        (fun i => s.deleted.get i)).length
    rw [List.range_succ, List.filter_append]
    simp [hget]
    exact h1
  · show s.deleted.len ≤ (s.vectors.vecs ++ [v]).length
    rw [List.length_append]
    have h2' : s.deleted.len ≤ s.vectors.vecs.length := h2
    omega

/-- `insert_vector` preserves the invariants; the length never shrinks. -/
theorem insert_vector_inv (s : AppendableMmapVectorStorage α) (key : ℕ)
    (v : List α) (h1 : countInv s) (h2 : flagsWf s) :
    countInv (insert_vector s key v).1 ∧ flagsWf (insert_vector s key v).1 ∧
      s.vectors.len ≤ (insert_vector s key v).1.vectors.len := by
  rcases Nat.lt_trichotomy key s.vectors.len with hlt | heq | hgt
  · rw [insert_vector_lt s key v hlt]
    have hlen : (s.vectors.vecs.set key v).length = s.vectors.vecs.length :=
      List.length_set _ _ _
    refine ⟨?_, ?_, ?_⟩
    · show s.deleted_count =
        ((List.range (s.vectors.vecs.set key v).length).filter
          (fun i => s.deleted.get i)).length
      rw [hlen]
      exact h1
    · show s.deleted.len ≤ (s.vectors.vecs.set key v).length
      rw [hlen]
      exact h2
    · show s.vectors.vecs.length ≤ (s.vectors.vecs.set key v).length
      rw [hlen]
  · subst heq
    rw [insert_vector_append s v]
    have := append_inv s v h1 h2
    refine ⟨this.1, this.2, ?_⟩
    show s.vectors.vecs.length ≤ (s.vectors.vecs ++ [v]).length
    rw [List.length_append]
    omega
  · rw [insert_vector_gt s key v hgt]
    exact ⟨h1, h2, le_refl _⟩

/-- The `update_from` loop preserves the invariants; the length never
shrinks. -/
theorem update_from_go_inv (others : List (List α × Bool)) (stopped : List Bool)
    (s : AppendableMmapVectorStorage α) (k : ℕ)
    (h1 : countInv s) (h2 : flagsWf s) :
    countInv (update_from_go s others stopped k).1 ∧
    flagsWf (update_from_go s others stopped k).1 ∧
    s.vectors.len ≤ (update_from_go s others stopped k).1.vectors.len := by
  induction others generalizing s k with
  | nil => exact ⟨h1, h2, le_refl _⟩
  | cons o rest ih =>
    rw [update_from_go]
    by_cases hstop : stopped.getD k false = true
    · simp only [hstop, if_true]
      exact ⟨h1, h2, le_refl _⟩
    · simp only [hstop, if_false, Bool.false_eq_true]
      have happ := append_inv s o.1 h1 h2
      have hpush1 : (s.vectors.push o.1).1 = ⟨s.vectors.vecs ++ [o.1]⟩ := rfl
      have hpush2 : (s.vectors.push o.1).2 = s.vectors.vecs.length := rfl
      rw [hpush1, hpush2]
      have hsd := set_deleted_inv
        ({ s with vectors := ⟨s.vectors.vecs ++ [o.1]⟩ } :
          AppendableMmapVectorStorage α)
        s.vectors.vecs.length o.2 happ.1 happ.2
      have hrec := ih _ (k + 1) hsd.1 hsd.2.1
      refine ⟨hrec.1, hrec.2.1, ?_⟩
      have hlen1 : ({ s with vectors := ⟨s.vectors.vecs ++ [o.1]⟩ } :
          AppendableMmapVectorStorage α).vectors.len =
        s.vectors.len + 1 := by
        show (s.vectors.vecs ++ [o.1]).length = s.vectors.vecs.length + 1
        simp
      have hlen2 := hsd.2.2
      have hlen3 := hrec.2.2
      omega

end VecStore

namespace VecStore

variable {α : Type}

/-- Every operation sequence preserves the invariants; the vector count
never decreases. -/
theorem applyVOps_inv (ops : List (VOp α)) (s : AppendableMmapVectorStorage α)
    (h1 : countInv s) (h2 : flagsWf s) :
    countInv (applyVOps s ops) ∧ flagsWf (applyVOps s ops) ∧
      s.vectors.len ≤ (applyVOps s ops).vectors.len := by
  induction ops generalizing s with
  | nil => exact ⟨h1, h2, le_refl _⟩
  | cons op rest ih =>
    cases op with
    | insert key v =>
      have hstep := insert_vector_inv s key v h1 h2
      have hrec := ih _ hstep.1 hstep.2.1
      exact ⟨hrec.1, hrec.2.1, le_trans hstep.2.2 hrec.2.2⟩
    | delete key =>
      have hstep := set_deleted_inv s key true h1 h2
      have hrec := ih _ hstep.1 hstep.2.1
      refine ⟨hrec.1, hrec.2.1, ?_⟩
      have ha := hstep.2.2
      have hb := hrec.2.2
      show s.vectors.len ≤ (applyVOps (set_deleted s key true).1 rest).vectors.len
      omega
    | updateFrom others stopped =>
      have hstep := update_from_go_inv others stopped s 0 h1 h2
      have hrec := ih _ hstep.1 hstep.2.1
      exact ⟨hrec.1, hrec.2.1, le_trans hstep.2.2 hrec.2.2⟩

/-- C7 (spec-modelled): the deferred closure returned by `flusher()`
flushes the chunked vector pages first and the deletion bitmap second:
invoked on any prior trace, it appends exactly the vector flush followed
by the deletion-bitmap flush. -/
theorem flusher_vectors_before_deleted (s : AppendableMmapVectorStorage α)
    (t : List FlushTarget) :
    flusher s t = t ++ [FlushTarget.vectors, FlushTarget.deletedFlags] := by
  simp [flusher, flushDeleted, flushVectors]

/-- C8: from any well-formed state (cached count correct, deletion flags
not extending past the vector count — true of a freshly opened storage),
after any sequence of `insert_vector`, `delete_vector` and `update_from`
operations, `deleted_vector_count()` equals the number of set bits of
the deletion bitmap at indices below `total_vector_count()`, and
`total_vector_count()` never decreases. -/
theorem vector_storage_deleted_count_invariant
    (s : AppendableMmapVectorStorage α) (ops : List (VOp α))
    (h1 : countInv s) (h2 : flagsWf s) :
    deleted_vector_count (applyVOps s ops) =
      ((List.range (total_vector_count (applyVOps s ops))).filter
        (fun i => is_deleted_vector (applyVOps s ops) i)).length ∧
    total_vector_count s ≤ total_vector_count (applyVOps s ops) := by
  have h := applyVOps_inv ops s h1 h2
  exact ⟨h.1, h.2.2⟩

/-- C8 (witness): the invariant applied to a two-vector storage opened
with one deleted flag, under a delete, an append, an overwrite, a
refused out-of-range insert, and a bulk copy. -/
theorem vector_storage_deleted_count_invariant_witness :
    countInv (openStorage [[1], [2]] [true] : AppendableMmapVectorStorage ℕ) ∧
    flagsWf (openStorage [[1], [2]] [true] : AppendableMmapVectorStorage ℕ) ∧
    (deleted_vector_count (applyVOps (openStorage [[1], [2]] [true])
        [VOp.delete 1, VOp.insert 2 [3], VOp.insert 0 [9], VOp.insert 9 [7],
          VOp.updateFrom [([4], true), ([5], false)] []]) =
      ((List.range (total_vector_count (applyVOps (openStorage [[1], [2]] [true])
          [VOp.delete 1, VOp.insert 2 [3], VOp.insert 0 [9], VOp.insert 9 [7],
            VOp.updateFrom [([4], true), ([5], false)] []]))).filter
        (fun i => is_deleted_vector (applyVOps (openStorage [[1], [2]] [true])
          [VOp.delete 1, VOp.insert 2 [3], VOp.insert 0 [9], VOp.insert 9 [7],
            VOp.updateFrom [([4], true), ([5], false)] []]) i)).length ∧
    total_vector_count (openStorage [[1], [2]] [true] :
        AppendableMmapVectorStorage ℕ) ≤
      total_vector_count (applyVOps (openStorage [[1], [2]] [true])
        [VOp.delete 1, VOp.insert 2 [3], VOp.insert 0 [9], VOp.insert 9 [7],
          VOp.updateFrom [([4], true), ([5], false)] []])) :=
  ⟨by decide, by decide,
    vector_storage_deleted_count_invariant _ _ (by decide) (by decide)⟩

/-- C10: `delete_vector(key)` for any key at or past
`total_vector_count()` returns `Ok(false)` and leaves the whole storage
— deletion bitmap, `deleted_vector_count()` and `total_vector_count()` —
unchanged. -/
theorem delete_vector_out_of_range (s : AppendableMmapVectorStorage α)
    (key : ℕ) (h : total_vector_count s ≤ key) :
    delete_vector s key = (s, false) := by
  have h' : s.vectors.len ≤ key := h
  simp [delete_vector, set_deleted, h']

/-- C10 (witness): deleting key 5 of a two-vector storage. -/
theorem delete_vector_out_of_range_witness :
    total_vector_count (openStorage [[1], [2]] [true] :
      AppendableMmapVectorStorage ℕ) ≤ 5 ∧
    delete_vector (openStorage [[1], [2]] [true] :
        AppendableMmapVectorStorage ℕ) 5 =
      (openStorage [[1], [2]] [true], false) :=
  ⟨by decide, delete_vector_out_of_range _ 5 (by decide)⟩

end VecStore
